import Mathlib


/-!
# Verification of the KLayout `LayoutToNetlist` extraction core

This development gives a shallow embedding of the netlist-extraction
orchestrator declared in `src/db/db/dbLayoutToNetlist.h` together with the
subsystems its contract refers to (connectivity graph, hierarchical cluster
builder, netlist model with `purge`, textual serialization, point probing),
and proves the contract-level properties stated in the specification.

Only the class declaration (with its doc comments) and one unit test of the
orchestrator are present in the repository snapshot; the implementations of
the cluster builder, `purge`, the serialization writer/reader and the probe
search are therefore modelled from the specification text, as noted on each
definition.
-/

namespace KLayout


/-! ## Geometry: boxes, points and translations

Shapes are modelled as axis-aligned boxes with closed edges; geometric
interaction is touching-or-overlapping, which is the edge relation the
cluster builder uses.  Instance transforms are modelled as translations
(the displacement part of `db::ICplxTrans`). -/

/-- An axis-aligned box with closed edges, `x1 ≤ x2` and `y1 ≤ y2` not
enforced structurally. -/
structure Box where
  x1 : Int
  y1 : Int
  x2 : Int
  y2 : Int
deriving DecidableEq

/-- An integer (database-unit) point. -/
structure Pt where
  x : Int
  y : Int
deriving DecidableEq

/-- A translation, the displacement part of an instance transform. -/
structure Trans where
  dx : Int
  dy : Int
deriving DecidableEq

/-- Boxes interact when they touch or overlap (closed-edge intersection
is non-empty). -/
def boxInteracts (a b : Box) : Bool :=
  a.x1 ≤ b.x2 && b.x1 ≤ a.x2 && a.y1 ≤ b.y2 && b.y1 ≤ a.y2

/-- A point touches a box (closed edges). -/
def boxContains (b : Box) (p : Pt) : Bool :=
  b.x1 ≤ p.x && p.x ≤ b.x2 && b.y1 ≤ p.y && p.y ≤ b.y2

/-- Apply a translation to a box. -/
def Trans.applyBox (t : Trans) (b : Box) : Box :=
  ⟨b.x1 + t.dx, b.y1 + t.dy, b.x2 + t.dx, b.y2 + t.dy⟩

/-- Pull a point back into the child coordinate frame of an instance. -/
def Trans.invPt (t : Trans) (p : Pt) : Pt :=
  ⟨p.x - t.dx, p.y - t.dy⟩

/-! ## The connectivity graph

`db::Connectivity` (declared in the header, implementation not in the
snapshot).  Modelled from the spec: "a symmetric relation over layer
identifiers (`connect(A,B)` ⇒ `connect(B,A)` implicitly) plus a separate
mapping from layer identifiers to global-net identifiers".  As in the
orchestrator's `connect` contract, an inter-layer `connect(A,B)` records the
connection in both directions, and an intra-layer `connect(L)` records the
self-connection `(L,L)`. -/

/-- Modelled from the spec: the connectivity graph `db::Connectivity`,
whose implementation is not in the snapshot.  `pairs` are the recorded
directed layer-pair connections, `globals` the layer-to-global-net-name
bindings. -/
structure Connectivity where
  pairs : List (Nat × Nat)
  globals : List (Nat × String)
deriving DecidableEq

/-- The empty connectivity graph. -/
def Connectivity.empty : Connectivity := ⟨[], []⟩

/-- Query of the recorded relation: is layer `a` recorded as connected to
layer `b`? -/
def Connectivity.isConnected (c : Connectivity) (a b : Nat) : Bool :=
  (a, b) ∈ c.pairs

/-- Inter-layer `connect (a, b)`: records the connection in both
directions (the implicit symmetrization of the spec). -/
def Connectivity.addInter (c : Connectivity) (a b : Nat) : Connectivity :=
  ⟨(a, b) :: (b, a) :: c.pairs, c.globals⟩

/-- Intra-layer `connect (l)`: records the self-connection. -/
def Connectivity.addIntra (c : Connectivity) (l : Nat) : Connectivity :=
  ⟨(l, l) :: c.pairs, c.globals⟩

/-- `connect_global (l, name)`: binds layer `l` to the global net `name`
(and makes the layer self-connected, as a global net joins all its layers). -/
def Connectivity.addGlobal (c : Connectivity) (l : Nat) (gn : String) : Connectivity :=
  ⟨(l, l) :: c.pairs, (l, gn) :: c.globals⟩

/-- A connectivity-definition call of phase 4. -/
inductive ConnCall where
  | intra (l : Nat)
  | inter (a b : Nat)
  | global (l : Nat) (gn : String)
deriving DecidableEq

/-- Apply one connectivity-definition call. -/
def ConnCall.apply (call : ConnCall) (c : Connectivity) : Connectivity :=
  match call with
  | .intra l => c.addIntra l
  | .inter a b => c.addInter a b
  | .global l gn => c.addGlobal l gn

/-- Apply a sequence of connectivity-definition calls, oldest first. -/
def Connectivity.ofCalls (calls : List ConnCall) : Connectivity :=
  calls.foldl (fun c call => call.apply c) Connectivity.empty

/-- Symmetry of the recorded relation of a connectivity graph. -/
def Connectivity.Symm (c : Connectivity) : Prop :=
  ∀ a b : Nat, c.isConnected a b = c.isConnected b a

/-! ## The cluster builder

Modelled from the spec: the local clustering of `db::hier_clusters` /
`db::local_clusters` (implementation not in the snapshot) — "group all
shapes on mutually connected layers into local clusters using geometric
interaction (touching/overlapping) as the edge relation — equivalent to
connected-components over a graph whose vertices are individual shapes and
whose edges are geometric interactions restricted to layer pairs present in
the Connectivity Graph."

The builder is the standard incremental connected-components fold: each new
element is merged with every existing cluster it interacts with. -/

/-- Insert one element: all clusters touching it are merged into one new
cluster together with the element; the remaining clusters are kept. -/
def addToClusters {α : Type} (R : α → α → Bool) (x : α) (cs : List (List α)) :
    List (List α) :=
  (x :: (cs.filter (fun c => c.any (R x))).flatten) :: cs.filter (fun c => !(c.any (R x)))

/-- Connected components of the interaction relation `R` over the list `xs`. -/
def buildClusters {α : Type} (R : α → α → Bool) (xs : List α) : List (List α) :=
  xs.foldl (fun cs x => addToClusters R x cs) []

/-- Two elements lie in one common cluster of the partition `cs`. -/
def InSame {α : Type} (cs : List (List α)) (a b : α) : Prop :=
  ∃ c ∈ cs, a ∈ c ∧ b ∈ c

/-! ## Shapes, local clusters and the hierarchical merge

Modelled from the spec (implementation of `db::hier_clusters` not in the
snapshot): per cell, local clusters are connected components of the shapes
under geometric interaction restricted to connected layer pairs; the
hierarchical merge transforms each child instance's local clusters into the
parent's coordinate space and merges interacting clusters into one logical
net. -/

/-- A shape: a box on a named layer. -/
structure Shape where
  layer : Nat
  box : Box
deriving DecidableEq

/-- The cluster builder's edge relation: geometric interaction restricted
to layer pairs present in the connectivity graph. -/
def shapeInteracts (conn : Connectivity) (a b : Shape) : Bool :=
  conn.isConnected a.layer b.layer && boxInteracts a.box b.box

/-- Transform a shape by an instance transform (layers are unchanged). -/
def transformShape (t : Trans) (s : Shape) : Shape :=
  ⟨s.layer, t.applyBox s.box⟩

/-- The local clusters of one cell: connected components of its shapes
under `shapeInteracts`. -/
def localClusters (conn : Connectivity) (shapes : List Shape) : List (List Shape) :=
  buildClusters (shapeInteracts conn) shapes

/-- Where a cluster participating in the parent-level merge came from:
the parent cell itself, or the `k`-th child instance. -/
inductive ClusterSrc where
  | parentCell
  | childInst (k : Nat)
deriving DecidableEq

/-- A cluster reference: source plus local-cluster index — the
`(cell, local-cluster-id)` pair of the cluster tree. -/
abbrev ClusterRef := ClusterSrc × Nat

/-- A child-cell instance: placement transform plus the child cell's
shapes. -/
structure CellInst where
  trans : Trans
  shapes : List Shape
deriving DecidableEq

/-- Tag a list of clusters with consecutive indexes starting at `j`, and
transform their shapes into the parent's coordinate space. -/
def tagClusters (src : ClusterSrc) (t : Trans) :
    Nat → List (List Shape) → List (ClusterRef × List Shape)
  | _, [] => []
  | j, c :: rest =>
    ((src, j), c.map (transformShape t)) :: tagClusters src t (j + 1) rest

/-- The merge inputs contributed by the child instances, numbered from `k`. -/
def instItems (conn : Connectivity) : Nat → List CellInst → List (ClusterRef × List Shape)
  | _, [] => []
  | k, i :: rest =>
    tagClusters (.childInst k) i.trans 0 (localClusters conn i.shapes)
      ++ instItems conn (k + 1) rest

/-- All inputs of the parent-level merge: the parent's own local clusters
plus every instance's transformed local clusters. -/
def mergeItems (conn : Connectivity) (parentShapes : List Shape)
    (insts : List CellInst) : List (ClusterRef × List Shape) :=
  tagClusters .parentCell ⟨0, 0⟩ 0 (localClusters conn parentShapes)
    ++ instItems conn 0 insts

/-- Two merge inputs interact when some shape of one interacts with some
shape of the other (in the parent's coordinate space). -/
def itemInteracts (conn : Connectivity) (a b : ClusterRef × List Shape) : Bool :=
  a.2.any (fun s => b.2.any (fun u => shapeInteracts conn s u))

/-- The parent-level hierarchical merge: connected components of the merge
inputs under `itemInteracts`. -/
def hierMerge (conn : Connectivity) (parentShapes : List Shape)
    (insts : List CellInst) : List (List (ClusterRef × List Shape)) :=
  buildClusters (itemInteracts conn) (mergeItems conn parentShapes insts)

/-- Two cluster references resolve to the same net of the parent-level
merge (the same equivalence class of the cluster tree). -/
def SameNet (conn : Connectivity) (parentShapes : List Shape)
    (insts : List CellInst) (r1 r2 : ClusterRef) : Prop :=
  ∃ c ∈ hierMerge conn parentShapes insts,
    (∃ i ∈ c, i.1 = r1) ∧ (∃ i ∈ c, i.1 = r2)

/-! ## Polygon splitting before interaction testing

Modelled from the spec (the splitting code of the hierarchical network
processor is not in the snapshot): "Large polygons are split according to
the area-ratio/vertex-count policy before interaction testing, purely for
performance".  A polygon is a union of convex parts (boxes); the policy
subdivides the part list while the vertex count exceeds the
`max_vertex_count` bound or the bounding box overestimates the area by more
than the `area_ratio` bound, and interaction testing then runs over the
fragments in place of the whole polygon. -/

/-- A polygon on a layer, as a union of convex parts. -/
structure Polygon where
  layer : Nat
  boxes : List Box
deriving DecidableEq

/-- Area of one box. -/
def boxArea (b : Box) : Int := (b.x2 - b.x1) * (b.y2 - b.y1)

/-- Summed area of the parts. -/
def sumArea (bs : List Box) : Int := (bs.map boxArea).sum

/-- Bounding box area of the parts (0 for the empty polygon). -/
def bboxArea (bs : List Box) : Int :=
  match bs with
  | [] => 0
  | b :: rest =>
    let xmin := rest.foldl (fun m c => min m c.x1) b.x1
    let ymin := rest.foldl (fun m c => min m c.y1) b.y1
    let xmax := rest.foldl (fun m c => max m c.x2) b.x2
    let ymax := rest.foldl (fun m c => max m c.y2) b.y2
    (xmax - xmin) * (ymax - ymin)

/-- The split policy's trigger: the polygon has more than `mvc` parts
(vertex-count bound) or its bounding box overestimates its area by more
than the factor `ar` (area-ratio bound). -/
def tooLarge (ar : ℚ) (mvc : Nat) (bs : List Box) : Bool :=
  mvc < bs.length || ar * (sumArea bs : ℚ) < (bboxArea bs : ℚ)

/-- Subdivide a polygon's part list according to the area-ratio /
max-vertex-count policy, returning the list of fragments. -/
def splitParts (ar : ℚ) (mvc : Nat) (bs : List Box) : List (List Box) :=
  if _h : 2 ≤ bs.length ∧ tooLarge ar mvc bs = true then
    splitParts ar mvc (bs.take (bs.length / 2))
      ++ splitParts ar mvc (bs.drop (bs.length / 2))
  else
    [bs]
termination_by bs.length
decreasing_by
  · simp only [List.length_take]
    omega
  · simp only [List.length_drop]
    omega

/-- Interaction of whole polygons: some part of one touches or overlaps
some part of the other, and their layers are connected. -/
def polyInteracts (conn : Connectivity) (p q : Polygon) : Bool :=
  conn.isConnected p.layer q.layer
    && p.boxes.any (fun a => q.boxes.any (fun b => boxInteracts a b))

/-- Interaction as tested after splitting: some fragment of one polygon
interacts with some fragment of the other. -/
def polyInteractsSplit (ar : ℚ) (mvc : Nat) (conn : Connectivity)
    (p q : Polygon) : Bool :=
  conn.isConnected p.layer q.layer
    && (splitParts ar mvc p.boxes).any (fun f1 =>
         f1.any (fun a =>
           (splitParts ar mvc q.boxes).any (fun f2 =>
             f2.any (fun b => boxInteracts a b))))

/-! ## The netlist object model and `purge`

The netlist model of §3 of the spec: circuits with nets, pins, devices and
subcircuit instances.  `db::Netlist::purge` is called in the unit test but
its implementation is not in the snapshot; it is modelled from the spec:
"`purge` removes: nets with no device/pin/subcircuit attachment (floating
nets), and circuits that became entirely empty as a result — recursively
... Purge must be a fixed point: repeat until no further removal happens." -/

/-- An extracted device: class, name and terminal-to-net bindings. -/
structure Device where
  name : String
  deviceClass : String
  terminals : List (String × Nat)
deriving DecidableEq

/-- A circuit pin bound to a net. -/
structure Pin where
  name : String
  net : Nat
deriving DecidableEq

/-- A subcircuit instance: the referenced circuit and its pin-to-net
bindings. -/
structure SubCircuit where
  circuitName : String
  pinNets : List Nat
deriving DecidableEq

/-- A net, identified by a circuit-local id. -/
structure Net where
  id : Nat
  name : String
deriving DecidableEq

/-- A circuit: nets plus the pins, devices and subcircuit instances bound
to them. -/
structure Circuit where
  name : String
  nets : List Net
  pins : List Pin
  devices : List Device
  subcircuits : List SubCircuit
deriving DecidableEq

/-- The netlist object model. -/
structure Netlist where
  circuits : List Circuit
deriving DecidableEq

/-- A net has an attachment in its circuit: some device terminal, circuit
pin or subcircuit pin binds it. -/
def Circuit.netUsed (c : Circuit) (n : Nat) : Bool :=
  c.devices.any (fun d => d.terminals.any (fun t => t.2 = n))
    || c.pins.any (fun p => p.net = n)
    || c.subcircuits.any (fun s => n ∈ s.pinNets)

/-- Modelled from the spec: one purge pass over a circuit's nets — drop
every floating net. -/
def purgeNets (c : Circuit) : Circuit :=
  { c with nets := c.nets.filter (fun n => c.netUsed n.id) }

/-- A circuit with no nets, devices or subcircuits left. -/
def Circuit.isEmptyCircuit (c : Circuit) : Bool :=
  c.nets.isEmpty && c.devices.isEmpty && c.subcircuits.isEmpty

/-- Drop subcircuit instances referencing removed circuits. -/
def dropDeadSubs (removed : List String) (c : Circuit) : Circuit :=
  { c with subcircuits := c.subcircuits.filter (fun s => !(removed.contains s.circuitName)) }

/-- Modelled from the spec: one purge pass over the whole netlist — drop
floating nets, then drop circuits that are entirely empty, then drop the
subcircuit instances that referenced a dropped circuit. -/
def purgeStep (nl : Netlist) : Netlist :=
  let cs := nl.circuits.map purgeNets
  let removed := (cs.filter (fun c => c.isEmptyCircuit)).map (fun c => c.name)
  let kept := cs.filter (fun c => !c.isEmptyCircuit)
  ⟨kept.map (dropDeadSubs removed)⟩

/-- Removal potential of a circuit: itself, its nets and its subcircuit
instances. -/
def Circuit.csize (c : Circuit) : Nat :=
  1 + c.nets.length + c.subcircuits.length

/-- Removal potential of a netlist: bounds the number of purge passes that
can still remove something. -/
def Netlist.size (nl : Netlist) : Nat :=
  (nl.circuits.map Circuit.csize).sum

/-- Modelled from the spec: `db::Netlist::purge` — repeat the purge pass
until nothing is removed any more (the removal potential bounds the number
of useful passes). -/
def purgeAux : Nat → Netlist → Netlist
  | 0, nl => nl
  | fuel + 1, nl =>
    let nl' := purgeStep nl
    if nl' = nl then nl else purgeAux fuel nl'

/-- `db::Netlist::purge`, modelled from the spec. -/
def Netlist.purge (nl : Netlist) : Netlist := purgeAux nl.size nl

/-! ## Textual serialization of the netlist

Modelled from the spec: `db::LayoutToNetlistStandardWriter` and the matching
reader are not in the snapshot; the spec requires "a textual export format
... capturing layers, connectivity, devices, circuits, nets, and
pin/terminal bindings, with a matching import that reconstructs an
equivalent netlist object model; exact grammar is out of scope here but
round-trip fidelity is a correctness requirement."  The text is modelled at
token granularity (names and numbers), with counted lists. -/

/-- One token of the textual format. -/
inductive Tok where
  | str (s : String)
  | num (n : Nat)
deriving DecidableEq

/-- Serialize a counted list. -/
def writeCounted {α : Type} (w : α → List Tok) (l : List α) : List Tok :=
  .num l.length :: (l.map w).flatten

def writeNet (n : Net) : List Tok := [.num n.id, .str n.name]

def writePin (p : Pin) : List Tok := [.str p.name, .num p.net]

def writeTerminal (t : String × Nat) : List Tok := [.str t.1, .num t.2]

def writeDevice (d : Device) : List Tok :=
  .str d.name :: .str d.deviceClass :: writeCounted writeTerminal d.terminals

def writeSubCircuit (s : SubCircuit) : List Tok :=
  .str s.circuitName :: writeCounted (fun n => [Tok.num n]) s.pinNets

def writeCircuit (c : Circuit) : List Tok :=
  .str c.name
    :: (writeCounted writeNet c.nets ++ writeCounted writePin c.pins
        ++ writeCounted writeDevice c.devices
        ++ writeCounted writeSubCircuit c.subcircuits)

/-- Export a netlist to the textual format. -/
def writeNetlist (nl : Netlist) : List Tok := writeCounted writeCircuit nl.circuits

def readNum : List Tok → Option (Nat × List Tok)
  | .num n :: rest => some (n, rest)
  | _ => none

def readStr : List Tok → Option (String × List Tok)
  | .str s :: rest => some (s, rest)
  | _ => none

def readCountedAux {α : Type} (r : List Tok → Option (α × List Tok)) :
    Nat → List Tok → Option (List α × List Tok)
  | 0, ts => some ([], ts)
  | n + 1, ts =>
    match r ts with
    | none => none
    | some (a, ts') =>
      match readCountedAux r n ts' with
      | none => none
      | some (l, ts'') => some (a :: l, ts'')

def readCounted {α : Type} (r : List Tok → Option (α × List Tok))
    (ts : List Tok) : Option (List α × List Tok) :=
  match readNum ts with
  | none => none
  | some (n, ts') => readCountedAux r n ts'

def readNet (ts : List Tok) : Option (Net × List Tok) :=
  match readNum ts with
  | none => none
  | some (i, ts1) =>
    match readStr ts1 with
    | none => none
    | some (s, ts2) => some (⟨i, s⟩, ts2)

def readPin (ts : List Tok) : Option (Pin × List Tok) :=
  match readStr ts with
  | none => none
  | some (s, ts1) =>
    match readNum ts1 with
    | none => none
    | some (n, ts2) => some (⟨s, n⟩, ts2)

def readTerminal (ts : List Tok) : Option ((String × Nat) × List Tok) :=
  match readStr ts with
  | none => none
  | some (s, ts1) =>
    match readNum ts1 with
    | none => none
    | some (n, ts2) => some ((s, n), ts2)

def readDevice (ts : List Tok) : Option (Device × List Tok) :=
  match readStr ts with
  | none => none
  | some (nm, ts1) =>
    match readStr ts1 with
    | none => none
    | some (cls, ts2) =>
      match readCounted readTerminal ts2 with
      | none => none
      | some (terms, ts3) => some (⟨nm, cls, terms⟩, ts3)

def readSubCircuit (ts : List Tok) : Option (SubCircuit × List Tok) :=
  match readStr ts with
  | none => none
  | some (nm, ts1) =>
    match readCounted readNum ts1 with
    | none => none
    | some (ns, ts2) => some (⟨nm, ns⟩, ts2)

def readCircuit (ts : List Tok) : Option (Circuit × List Tok) :=
  match readStr ts with
  | none => none
  | some (nm, ts1) =>
    match readCounted readNet ts1 with
    | none => none
    | some (nets, ts2) =>
      match readCounted readPin ts2 with
      | none => none
      | some (pins, ts3) =>
        match readCounted readDevice ts3 with
        | none => none
        | some (devs, ts4) =>
          match readCounted readSubCircuit ts4 with
          | none => none
          | some (subs, ts5) => some (⟨nm, nets, pins, devs, subs⟩, ts5)

/-- Import a netlist from the textual format (`none` on malformed input or
trailing garbage). -/
def readNetlist (ts : List Tok) : Option Netlist :=
  match readCounted readCircuit ts with
  | none => none
  | some (cs, []) => some ⟨cs⟩
  | some (_, _ :: _) => none

/-! ## Net probing

`LayoutToNetlist::probe_net` (declared in the header; `search_net` is
private and its implementation is not in the snapshot).  Modelled from the
spec: "starting at the cell and coordinate frame the session was built on,
locate a shape of the given region touching the point; if none is found in
the current cell, descend into child-cell instances whose transformed
bounding area covers the point, recursively, returning the first net found
or none.  Supports both a real-world-unit point and a grid-unit point." -/

/-- A shape with its layer and the net it was assigned to by extraction. -/
structure PShape where
  layer : Nat
  box : Box
  net : Nat
deriving DecidableEq

mutual
/-- A cell of the probed hierarchy: own shapes plus child instances. -/
inductive PCell where
  | mk (shapes : List PShape) (insts : InstList)
/-- The child instances of a cell: placement transform plus child cell. -/
inductive InstList where
  | nil
  | cons (t : Trans) (child : PCell) (rest : InstList)
end


def PCell.shapes : PCell → List PShape
  | .mk s _ => s

def PCell.insts : PCell → InstList
  | .mk _ i => i

def InstList.toList : InstList → List (Trans × PCell)
  | .nil => []
  | .cons t c rest => (t, c) :: rest.toList

/-- Smallest box containing two boxes. -/
def boxUnion (a b : Box) : Box :=
  ⟨min a.x1 b.x1, min a.y1 b.y1, max a.x2 b.x2, max a.y2 b.y2⟩

def mergeOptBox : Option Box → Option Box → Option Box
  | none, b => b
  | some a, none => some a
  | some a, some b => some (boxUnion a b)

def shapesBBox (ss : List PShape) : Option Box :=
  ss.foldl (fun acc s => mergeOptBox acc (some s.box)) none

mutual
/-- The bounding area of a cell (none when the cell subtree is empty). -/
def PCell.bbox : PCell → Option Box
  | .mk shapes insts => mergeOptBox (shapesBBox shapes) (InstList.bbox insts)
def InstList.bbox : InstList → Option Box
  | .nil => none
  | .cons t c rest => mergeOptBox (Option.map t.applyBox (PCell.bbox c)) (InstList.bbox rest)
end


/-- Does the (possibly empty) bounding area cover the point? -/
def coversPt : Option Box → Pt → Bool
  | none, _ => false
  | some b, p => boxContains b p

/-- The local hit test of the probe: a shape of the probed layer touching
the point. -/
def probePred (L : Nat) (p : Pt) (s : PShape) : Bool :=
  s.layer == L && boxContains s.box p

mutual
/-- `probe_net` with a database-unit point, modelled from the spec: first
a local hit in the current cell, else the first net found while descending
into the instances whose transformed bounding area covers the point. -/
def probeNet (L : Nat) (p : Pt) : PCell → Option Nat
  | .mk shapes insts =>
    match shapes.find? (probePred L p) with
    | some s => some s.net
    | none => probeNetInsts L p insts
def probeNetInsts (L : Nat) (p : Pt) : InstList → Option Nat
  | .nil => none
  | .cons t child rest =>
    match (if coversPt (Option.map t.applyBox (PCell.bbox child)) p
           then probeNet L (t.invPt p) child else none) with
    | some n => some n
    | none => probeNetInsts L p rest
end


/-- A micrometer-unit point. -/
structure DPt where
  x : ℚ
  y : ℚ

/-- Convert a micrometer-unit point into database units (the coordinate
space of the initial cell), given the database unit. -/
def toDbu (dbu : ℚ) (q : DPt) : Pt :=
  ⟨⌊q.x / dbu + 1 / 2⌋, ⌊q.y / dbu + 1 / 2⌋⟩

/-- The micrometer-unit variant of `probe_net`: converts the location and
runs the database-unit probe. -/
def probeNetUm (dbu : ℚ) (L : Nat) (q : DPt) (c : PCell) : Option Nat :=
  probeNet L (toDbu dbu q) c

/-- The probe search can reach net `n` for layer `L` at point `p` in a
cell: a shape of layer `L` touches the point here, or some instance whose
transformed bounding area covers the point reaches it recursively. -/
inductive ProbeFound (L : Nat) : PCell → Pt → Nat → Prop where
  | here {shapes : List PShape} {insts : InstList} {p : Pt} {s : PShape}
      (hmem : s ∈ shapes) (hlay : s.layer = L) (htouch : boxContains s.box p = true) :
      ProbeFound L (.mk shapes insts) p s.net
  | desc {shapes : List PShape} {insts : InstList} {p : Pt} {t : Trans}
      {child : PCell} {n : Nat}
      (hmem : (t, child) ∈ insts.toList)
      (hcov : coversPt (Option.map t.applyBox (PCell.bbox child)) p = true)
      (hrec : ProbeFound L child (t.invPt p) n) :
      ProbeFound L (.mk shapes insts) p n

/-! ## The orchestrator: `db::LayoutToNetlist`

The session state mirrors the private members of the class declaration
(`m_conn`, `mp_netlist`, `m_dlrefs`, `m_netlist_extracted`, thread count and
split thresholds); operations are modelled from the header's doc comments
and, where the `.cc` implementation is missing from the snapshot, from the
spec's phase protocol.  A `Region` handle handed out by the orchestrator is
a thin view over an internal layer id (spec §9), so the orchestrator's own
state never stores `Region` values. -/

/-- A caller-held region handle: a thin view over an internal layer id. -/
structure Region where
  id : Nat
deriving DecidableEq

/-- Usage errors of the phase protocol (spec §7: fail immediately and
synchronously). -/
inductive UsageError where
  | notExtracted
  | alreadyExtracted
  | malformedRoleMapping
deriving DecidableEq

/-- The orchestrator session state, mirroring the private members of
`LayoutToNetlist` (header lines 367-373). -/
structure L2NState where
  m_threads : Nat
  m_area_ratio : ℚ
  m_max_vertex_count : Nat
  m_conn : Connectivity
  mp_netlist : Option Netlist
  m_dlrefs : List Nat
  m_netlist_extracted : Bool
  m_next_layer : Nat
  m_design : List Shape
deriving DecidableEq

/-- A fresh session over the given input design (the constructor taking
the recursive shape iterator). -/
def L2NState.init (design : List Shape) : L2NState :=
  ⟨0, 0, 0, Connectivity.empty, none, [], false, 0, design⟩

/-- `set_threads`. -/
def set_threads (n : Nat) (st : L2NState) : L2NState := { st with m_threads := n }

/-- `set_area_ratio`. -/
def set_area_ratio (ar : ℚ) (st : L2NState) : L2NState := { st with m_area_ratio := ar }

/-- `set_max_vertex_count`. -/
def set_max_vertex_count (n : Nat) (st : L2NState) : L2NState :=
  { st with m_max_vertex_count := n }

/-- `make_layer`: allocates a fresh internal layer id, keeps it referenced
in `m_dlrefs`, and hands out a thin `Region` view on it. -/
def make_layer (st : L2NState) : Region × L2NState :=
  (⟨st.m_next_layer⟩,
    { st with
        m_next_layer := st.m_next_layer + 1
        m_dlrefs := st.m_next_layer :: st.m_dlrefs })

/-- Intra-layer `connect`: records only the layer id of the region. -/
def connectIntra (r : Region) (st : L2NState) : L2NState :=
  { st with m_conn := st.m_conn.addIntra r.id }

/-- Inter-layer `connect`: records only the layer ids of the regions. -/
def connectInter (a b : Region) (st : L2NState) : L2NState :=
  { st with m_conn := st.m_conn.addInter a.id b.id }

/-- `connect_global`: records the layer id and the global net name. -/
def connectGlobal (r : Region) (gn : String) (st : L2NState) : L2NState :=
  { st with m_conn := st.m_conn.addGlobal r.id gn }

/-- A device extractor: its name and the input roles it declares
(the roles whose regions it requires in the role mapping). -/
structure DeviceExtractor where
  name : String
  requiredRoles : List String
deriving DecidableEq

/-- `extract_devices`, modelled from the spec: the role mapping is
validated at call time — every declared role must reference a region;
extra entries (supplemental recognition context, like the test's "P"
layer) are legal.  On success the used layers are kept referenced. -/
def extract_devices (ex : DeviceExtractor) (layers : List (String × Region))
    (st : L2NState) : Except UsageError L2NState :=
  if ex.requiredRoles.all (fun role => layers.any (fun kv => kv.1 = role)) then
    .ok { st with m_dlrefs := (layers.map (fun kv => kv.2.id)) ++ st.m_dlrefs }
  else
    .error .malformedRoleMapping

/-- The netlist the extraction pass produces, modelled from the spec: one
circuit for the initial cell, one net per cluster of the design's shapes
under the declared connectivity. -/
def extractNetlistFrom (st : L2NState) : Netlist :=
  ⟨[⟨"TOP",
     (List.range (localClusters st.m_conn st.m_design).length).map (fun i => ⟨i, ""⟩),
     [], [], []⟩]⟩

/-- `extract_netlist`: runs once; a second call on the same session is a
usage error (spec §4.1: idempotent-unsafe — forbid or fail explicitly). -/
def extract_netlist (st : L2NState) : Except UsageError L2NState :=
  if st.m_netlist_extracted then .error .alreadyExtracted
  else .ok { st with
               mp_netlist := some (extractNetlistFrom st)
               m_netlist_extracted := true }

/-- `netlist()`: returns the extracted netlist, or null (`none`) if no
extraction happened yet (header line 250) — it never raises. -/
def netlistQueryFn (st : L2NState) : Option Netlist := st.mp_netlist

/-- Net id probed at a point of a layer: the cluster of the design
containing a shape of the layer touching the point. -/
def probePayload (st : L2NState) (L : Nat) (p : Pt) : Option Nat :=
  (localClusters st.m_conn st.m_design).findIdx?
    (fun c => c.any (fun s => s.layer == L && boxContains s.box p))

/-- Shapes of one net restricted to a layer. -/
def shapesPayload (st : L2NState) (netIdx L : Nat) : List Shape :=
  ((localClusters st.m_conn st.m_design).getD netIdx []).filter (fun s => s.layer == L)

/-- The Result Retrieval operations of phase 6. -/
inductive ResultOp where
  | netlistQuery
  | probeNetOp (layer : Nat) (p : Pt)
  | shapesOfNetOp (netIdx layer : Nat)
  | buildNetOp (netIdx : Nat)
  | buildAllNetsOp
deriving DecidableEq

/-- Results of the Result Retrieval operations. -/
inductive ResultVal where
  | netlistVal (nl : Option Netlist)
  | netVal (n : Option Nat)
  | shapesVal (ss : List Shape)
  | builtVal (nets : List Nat)
deriving DecidableEq

/-- Run one Result Retrieval operation.  `netlist()` returns the stored
pointer (null before extraction, header line 250); the other operations
require the netlist to have been extracted and fail with a usage error
otherwise (spec §4.1 contract, modelled — the `.cc` file is not in the
snapshot). -/
def runResultOp (op : ResultOp) (st : L2NState) : Except UsageError ResultVal :=
  match op with
  | .netlistQuery => .ok (.netlistVal st.mp_netlist)
  | .probeNetOp L p =>
    if st.m_netlist_extracted then .ok (.netVal (probePayload st L p))
    else .error .notExtracted
  | .shapesOfNetOp i L =>
    if st.m_netlist_extracted then .ok (.shapesVal (shapesPayload st i L))
    else .error .notExtracted
  | .buildNetOp i =>
    if st.m_netlist_extracted then .ok (.builtVal [i])
    else .error .notExtracted
  | .buildAllNetsOp =>
    if st.m_netlist_extracted then
      .ok (.builtVal (List.range (localClusters st.m_conn st.m_design).length))
    else .error .notExtracted

/-! ### Session scripts

A session is a sequence of caller commands over a world holding the
caller's region handles (by slot) next to the orchestrator state.  The
caller may free a handle at any time (`freeRegionCmd`); the orchestrator
tracks layers by id only. -/

/-- The caller-visible world: the caller's handle table and the session. -/
structure World where
  caller : Nat → Option Region
  l2n : L2NState

/-- Caller commands of a session script. -/
inductive Cmd where
  | makeLayerCmd (slot : Nat)
  | freeRegionCmd (slot : Nat)
  | connectIntraCmd (slot : Nat)
  | connectInterCmd (slot1 slot2 : Nat)
  | connectGlobalCmd (slot : Nat) (gn : String)
  | extractDevicesCmd (ex : DeviceExtractor) (roles : List (String × Nat))
  | extractNetlistCmd
deriving DecidableEq

/-- Destroying a caller-held handle. -/
def Cmd.isFree : Cmd → Bool
  | .freeRegionCmd _ => true
  | _ => false

/-- Resolve a role-to-slot mapping through the caller's handle table. -/
def resolveRoles (caller : Nat → Option Region) :
    List (String × Nat) → Option (List (String × Region))
  | [] => some []
  | (nm, slot) :: rest =>
    match caller slot with
    | none => none
    | some r =>
      match resolveRoles caller rest with
      | none => none
      | some more => some ((nm, r) :: more)

/-- One step of a session script.  Commands whose handles no longer
resolve are no-ops here; well-formed runs (`runOk`) exclude them. -/
def stepCmd (cmd : Cmd) (w : World) : World :=
  match cmd with
  | .makeLayerCmd slot =>
    let rs := make_layer w.l2n
    ⟨fun i => if i = slot then some rs.1 else w.caller i, rs.2⟩
  | .freeRegionCmd slot =>
    ⟨fun i => if i = slot then none else w.caller i, w.l2n⟩
  | .connectIntraCmd slot =>
    match w.caller slot with
    | some r => ⟨w.caller, connectIntra r w.l2n⟩
    | none => w
  | .connectInterCmd s1 s2 =>
    match w.caller s1, w.caller s2 with
    | some a, some b => ⟨w.caller, connectInter a b w.l2n⟩
    | _, _ => w
  | .connectGlobalCmd slot gn =>
    match w.caller slot with
    | some r => ⟨w.caller, connectGlobal r gn w.l2n⟩
    | none => w
  | .extractDevicesCmd ex roles =>
    match resolveRoles w.caller roles with
    | some layers =>
      match extract_devices ex layers w.l2n with
      | .ok st' => ⟨w.caller, st'⟩
      | .error _ => w
    | none => w
  | .extractNetlistCmd =>
    match extract_netlist w.l2n with
    | .ok st' => ⟨w.caller, st'⟩
    | .error _ => w

/-- Run a session script. -/
def runScript (cmds : List Cmd) (w : World) : World :=
  cmds.foldl (fun w c => stepCmd c w) w

/-- Every handle a command uses still resolves. -/
def cmdOk (w : World) : Cmd → Bool
  | .makeLayerCmd _ => true
  | .freeRegionCmd _ => true
  | .connectIntraCmd slot => (w.caller slot).isSome
  | .connectInterCmd s1 s2 => (w.caller s1).isSome && (w.caller s2).isSome
  | .connectGlobalCmd slot _ => (w.caller slot).isSome
  | .extractDevicesCmd _ roles => (resolveRoles w.caller roles).isSome
  | .extractNetlistCmd => true

/-- A run is well-formed when every command's handles resolve at the time
it executes. -/
def runOk : List Cmd → World → Bool
  | [], _ => true
  | c :: cs, w => cmdOk w c && runOk cs (stepCmd c w)

/-! ### Freeing regions is transparent to the orchestrator (C9) -/

/-- Simulation between a world whose caller has freed some handles and the
world that kept them: same orchestrator state, caller table included in the
other. -/
def WSim (w' w : World) : Prop :=
  w'.l2n = w.l2n ∧ ∀ i r, w'.caller i = some r → w.caller i = some r

/-! ### The netlist pointer and the extraction flag (C10) -/

/-- Phase invariant: while no extraction has run, the stored netlist
pointer is null. -/
def PhaseInv (st : L2NState) : Prop :=
  st.m_netlist_extracted = false → st.mp_netlist = none

/-! ## Theorems -/

theorem boxInteracts_symm (a b : Box) : boxInteracts a b = boxInteracts b a := by
  simp only [boxInteracts]
  by_cases h1 : a.x1 ≤ b.x2 <;> by_cases h2 : b.x1 ≤ a.x2 <;>
    by_cases h3 : a.y1 ≤ b.y2 <;> by_cases h4 : b.y1 ≤ a.y2 <;>
      simp [h1, h2, h3, h4]

theorem boxInteracts_trans (t : Trans) (a b : Box) :
    boxInteracts (t.applyBox a) (t.applyBox b) = boxInteracts a b := by
  simp [boxInteracts, Trans.applyBox, add_le_add_iff_right]

theorem Connectivity.empty_symm : Connectivity.empty.Symm := by
  intro a b
  simp [Connectivity.isConnected, Connectivity.empty]

/-- Membership symmetry transported through the Bool-valued query. -/
theorem Connectivity.Symm.mem_iff {c : Connectivity} (h : c.Symm) (a b : Nat) :
    (a, b) ∈ c.pairs ↔ (b, a) ∈ c.pairs := by
  have hc := h a b
  simp only [Connectivity.isConnected] at hc
  exact decide_eq_decide.mp hc

/-- Extending the pair list with a self-pair preserves symmetry. -/
theorem symm_cons_self (c : Connectivity) (h : c.Symm) (l : Nat) (gs : List (Nat × String)) :
    Connectivity.Symm ⟨(l, l) :: c.pairs, gs⟩ := by
  intro a b
  simp only [Connectivity.isConnected, List.mem_cons]
  rw [decide_eq_decide]
  constructor
  · rintro (hp | hp)
    · left
      simp only [Prod.mk.injEq] at hp ⊢
      exact ⟨hp.2, hp.1⟩
    · exact Or.inr ((h.mem_iff a b).mp hp)
  · rintro (hp | hp)
    · left
      simp only [Prod.mk.injEq] at hp ⊢
      exact ⟨hp.2, hp.1⟩
    · exact Or.inr ((h.mem_iff a b).mpr hp)

/-- Extending the pair list with a pair and its swap preserves symmetry. -/
theorem symm_cons_both (c : Connectivity) (h : c.Symm) (x y : Nat)
    (gs : List (Nat × String)) :
    Connectivity.Symm ⟨(x, y) :: (y, x) :: c.pairs, gs⟩ := by
  intro a b
  simp only [Connectivity.isConnected, List.mem_cons]
  rw [decide_eq_decide]
  constructor
  · rintro (hp | hp | hp)
    · right; left
      simp only [Prod.mk.injEq] at hp ⊢
      exact ⟨hp.2, hp.1⟩
    · left
      simp only [Prod.mk.injEq] at hp ⊢
      exact ⟨hp.2, hp.1⟩
    · exact Or.inr (Or.inr ((h.mem_iff a b).mp hp))
  · rintro (hp | hp | hp)
    · right; left
      simp only [Prod.mk.injEq] at hp ⊢
      exact ⟨hp.2, hp.1⟩
    · left
      simp only [Prod.mk.injEq] at hp ⊢
      exact ⟨hp.2, hp.1⟩
    · exact Or.inr (Or.inr ((h.mem_iff a b).mpr hp))

theorem ConnCall.apply_symm (call : ConnCall) (c : Connectivity) (h : c.Symm) :
    (call.apply c).Symm := by
  cases call with
  | intra l => exact symm_cons_self c h l c.globals
  | inter x y => exact symm_cons_both c h x y c.globals
  | global l gn => exact symm_cons_self c h l ((l, gn) :: c.globals)

/-- The connectivity graph reached by any call sequence is symmetric. -/
theorem Connectivity.ofCalls_symm (calls : List ConnCall) :
    (Connectivity.ofCalls calls).Symm := by
  suffices h : ∀ (c : Connectivity), c.Symm →
      (calls.foldl (fun c call => call.apply c) c).Symm by
    exact h Connectivity.empty Connectivity.empty_symm
  induction calls with
  | nil => intro c hc; exact hc
  | cons call rest ih =>
    intro c hc
    exact ih (call.apply c) (ConnCall.apply_symm call c hc)

/-- **C6.** The connectivity relation declared via `connect` is symmetric:
after any sequence of `connect` declarations (intra-layer, inter-layer or
global), layer `a` is connected to layer `b` iff `b` is connected to `a` —
declaring `connect(A,B)` implicitly declares `connect(B,A)`. -/
theorem connect_relation_symmetric (calls : List ConnCall) (a b : Nat) :
    (Connectivity.ofCalls calls).isConnected a b
      = (Connectivity.ofCalls calls).isConnected b a :=
  Connectivity.ofCalls_symm calls a b

theorem insame_comm {α : Type} {cs : List (List α)} {a b : α}
    (h : InSame cs a b) : InSame cs b a := by
  obtain ⟨c, hc, ha, hb⟩ := h
  exact ⟨c, hc, hb, ha⟩

theorem mem_flatten_addToClusters {α : Type} (R : α → α → Bool) (x b : α)
    (cs : List (List α)) :
    b ∈ (addToClusters R x cs).flatten ↔ b = x ∨ b ∈ cs.flatten := by
  simp only [addToClusters, List.flatten_cons, List.mem_append, List.mem_cons,
    List.mem_flatten, List.mem_filter]
  constructor
  · rintro ((rfl | hb) | ⟨c, ⟨hc, _⟩, hb⟩)
    · exact Or.inl rfl
    · obtain ⟨c, ⟨hc, _⟩, hbc⟩ := hb
      exact Or.inr ⟨c, hc, hbc⟩
    · exact Or.inr ⟨c, hc, hb⟩
  · rintro (rfl | ⟨c, hc, hb⟩)
    · exact Or.inl (Or.inl rfl)
    · by_cases ht : c.any (R x) = true
      · exact Or.inl (Or.inr ⟨c, ⟨hc, ht⟩, hb⟩)
      · exact Or.inr ⟨c, ⟨hc, by simp [ht]⟩, hb⟩

/-- Existing clusters only grow (as sets) when an element is inserted. -/
theorem addToClusters_grow {α : Type} (R : α → α → Bool) (x : α)
    {cs : List (List α)} {c : List α} (hc : c ∈ cs) :
    ∃ c' ∈ addToClusters R x cs, c ⊆ c' := by
  by_cases ht : c.any (R x) = true
  · refine ⟨x :: (cs.filter (fun c => c.any (R x))).flatten, by simp [addToClusters], ?_⟩
    intro a ha
    exact List.mem_cons_of_mem x (List.mem_flatten.mpr ⟨c, List.mem_filter.mpr ⟨hc, ht⟩, ha⟩)
  · refine ⟨c, ?_, fun a ha => ha⟩
    simp only [addToClusters, List.mem_cons]
    exact Or.inr (List.mem_filter.mpr ⟨hc, by simp [ht]⟩)

theorem insame_addToClusters {α : Type} {R : α → α → Bool} {x : α}
    {cs : List (List α)} {a b : α} (h : InSame cs a b) :
    InSame (addToClusters R x cs) a b := by
  obtain ⟨c, hc, ha, hb⟩ := h
  obtain ⟨c', hc', hsub⟩ := addToClusters_grow R x hc
  exact ⟨c', hc', hsub ha, hsub hb⟩

/-- The inserted element ends up clustered with every element it interacts
with that is already present. -/
theorem addToClusters_joins {α : Type} (R : α → α → Bool) {x a : α}
    {cs : List (List α)} {c : List α} (hc : c ∈ cs) (ha : a ∈ c)
    (hR : R x a = true) :
    InSame (addToClusters R x cs) x a := by
  refine ⟨x :: (cs.filter (fun c => c.any (R x))).flatten, by simp [addToClusters],
    List.mem_cons_self x _, ?_⟩
  refine List.mem_cons_of_mem x (List.mem_flatten.mpr ⟨c, ?_, ha⟩)
  exact List.mem_filter.mpr ⟨hc, List.any_eq_true.mpr ⟨a, ha, hR⟩⟩

theorem insame_foldl {α : Type} {R : α → α → Bool} {cs : List (List α)}
    {a b : α} (h : InSame cs a b) (xs : List α) :
    InSame (xs.foldl (fun cs x => addToClusters R x cs) cs) a b := by
  induction xs generalizing cs with
  | nil => exact h
  | cons x xs ih => exact ih (insame_addToClusters h)

theorem mem_flatten_foldl {α : Type} {R : α → α → Bool} {cs : List (List α)}
    {a : α} (h : a ∈ cs.flatten) (xs : List α) :
    a ∈ (xs.foldl (fun cs x => addToClusters R x cs) cs).flatten := by
  induction xs generalizing cs with
  | nil => exact h
  | cons x xs ih => exact ih ((mem_flatten_addToClusters R x a cs).mpr (Or.inr h))

/-- An element already present gets clustered with any later-inserted
element that interacts with it. -/
theorem insame_foldl_of_edge {α : Type} {R : α → α → Bool} {cs : List (List α)}
    {a b : α} (ha : a ∈ cs.flatten) {xs : List α} (hb : b ∈ xs)
    (hR : R b a = true) :
    InSame (xs.foldl (fun cs x => addToClusters R x cs) cs) a b := by
  induction xs generalizing cs with
  | nil => cases hb
  | cons x xs ih =>
    rcases List.mem_cons.mp hb with rfl | hb'
    · obtain ⟨c, hc, hac⟩ := List.mem_flatten.mp ha
      exact insame_foldl (insame_comm (addToClusters_joins R hc hac hR)) xs
    · exact ih ((mem_flatten_addToClusters R x a cs).mpr (Or.inr ha)) hb'

/-- **Merge soundness of the cluster builder**: two distinct listed elements
that interact end up in the same cluster. -/
theorem buildClusters_joins {α : Type} {R : α → α → Bool} {xs : List α}
    {a b : α} (ha : a ∈ xs) (hb : b ∈ xs) (hne : a ≠ b)
    (hab : R a b = true) (hba : R b a = true) :
    InSame (buildClusters R xs) a b := by
  suffices h : ∀ cs : List (List α),
      InSame (xs.foldl (fun cs x => addToClusters R x cs) cs) a b by
    exact h []
  induction xs with
  | nil => cases ha
  | cons x xs ih =>
    intro cs
    rcases List.mem_cons.mp ha with rfl | ha'
    · have hb' : b ∈ xs := by
        rcases List.mem_cons.mp hb with rfl | hb'
        · exact absurd rfl hne
        · exact hb'
      have haj : a ∈ (addToClusters R a cs).flatten :=
        (mem_flatten_addToClusters R a a cs).mpr (Or.inl rfl)
      exact insame_foldl_of_edge haj hb' hba
    · rcases List.mem_cons.mp hb with rfl | hb'
      · have haj : b ∈ (addToClusters R b cs).flatten :=
          (mem_flatten_addToClusters R b b cs).mpr (Or.inl rfl)
        exact insame_comm (insame_foldl_of_edge haj ha' hab)
      · exact ih ha' hb' (addToClusters R x cs)

theorem tagClusters_mem (src : ClusterSrc) (t : Trans) {cls : List (List Shape)}
    {j : Nat} {c : List Shape} (h : cls[j]? = some c) (j0 : Nat) :
    ((src, j0 + j), c.map (transformShape t)) ∈ tagClusters src t j0 cls := by
  induction cls generalizing j j0 with
  | nil => simp at h
  | cons c0 rest ih =>
    cases j with
    | zero =>
      simp only [List.getElem?_cons_zero, Option.some.injEq] at h
      subst h
      simp [tagClusters]
    | succ j' =>
      simp only [List.getElem?_cons_succ] at h
      have := ih h (j0 + 1)
      simp only [tagClusters, List.mem_cons]
      right
      have harith : j0 + 1 + j' = j0 + (j' + 1) := by omega
      rw [← harith]
      exact this

theorem instItems_mem {conn : Connectivity} {insts : List CellInst} {k : Nat}
    {i : CellInst} (h : insts[k]? = some i) {j : Nat} {c : List Shape}
    (hc : (localClusters conn i.shapes)[j]? = some c) (k0 : Nat) :
    ((ClusterSrc.childInst (k0 + k), j), c.map (transformShape i.trans))
      ∈ instItems conn k0 insts := by
  induction insts generalizing k k0 with
  | nil => simp at h
  | cons i0 rest ih =>
    cases k with
    | zero =>
      simp only [List.getElem?_cons_zero, Option.some.injEq] at h
      subst h
      simp only [instItems, List.mem_append]
      left
      have := tagClusters_mem (.childInst k0) i0.trans hc 0
      simpa using this
    | succ k' =>
      simp only [List.getElem?_cons_succ] at h
      have := ih h (k0 + 1)
      simp only [instItems, List.mem_append]
      right
      have harith : k0 + 1 + k' = k0 + (k' + 1) := by omega
      rw [← harith]
      exact this

/-- **C2.** Hierarchical merge correctness: if a shape of one sibling
instance's local cluster interacts — after applying the two instance
transforms — with a shape of another sibling instance's local cluster
(their boxes touch or overlap and their layers are connected), then the
hierarchical merge resolves both local clusters to the same global net:
the two `(cell, local-cluster)` references land in one equivalence class. -/
theorem hier_merge_correct (conn : Connectivity) (hsymm : conn.Symm)
    (parentShapes : List Shape) (insts : List CellInst)
    {k1 k2 : Nat} {i1 i2 : CellInst}
    (h1 : insts[k1]? = some i1) (h2 : insts[k2]? = some i2) (hk : k1 ≠ k2)
    {j1 j2 : Nat} {c1 c2 : List Shape}
    (hc1 : (localClusters conn i1.shapes)[j1]? = some c1)
    (hc2 : (localClusters conn i2.shapes)[j2]? = some c2)
    {s1 s2 : Shape} (hs1 : s1 ∈ c1) (hs2 : s2 ∈ c2)
    (hlay : conn.isConnected s1.layer s2.layer = true)
    (hgeo : boxInteracts (i1.trans.applyBox s1.box) (i2.trans.applyBox s2.box) = true) :
    SameNet conn parentShapes insts (.childInst k1, j1) (.childInst k2, j2) := by
  set item1 : ClusterRef × List Shape :=
    ((ClusterSrc.childInst k1, j1), c1.map (transformShape i1.trans)) with hitem1
  set item2 : ClusterRef × List Shape :=
    ((ClusterSrc.childInst k2, j2), c2.map (transformShape i2.trans)) with hitem2
  have hm1 : item1 ∈ mergeItems conn parentShapes insts := by
    simp only [mergeItems, List.mem_append]
    exact Or.inr (by simpa using instItems_mem h1 hc1 0)
  have hm2 : item2 ∈ mergeItems conn parentShapes insts := by
    simp only [mergeItems, List.mem_append]
    exact Or.inr (by simpa using instItems_mem h2 hc2 0)
  have hts1 : transformShape i1.trans s1 ∈ item1.2 := List.mem_map_of_mem _ hs1
  have hts2 : transformShape i2.trans s2 ∈ item2.2 := List.mem_map_of_mem _ hs2
  have hint12 : shapeInteracts conn (transformShape i1.trans s1) (transformShape i2.trans s2) = true := by
    simp only [shapeInteracts, transformShape, Bool.and_eq_true]
    exact ⟨hlay, hgeo⟩
  have hint21 : shapeInteracts conn (transformShape i2.trans s2) (transformShape i1.trans s1) = true := by
    simp only [shapeInteracts, transformShape, Bool.and_eq_true]
    refine ⟨?_, ?_⟩
    · rw [hsymm s2.layer s1.layer]
      exact hlay
    · rw [boxInteracts_symm]
      exact hgeo
  have hR12 : itemInteracts conn item1 item2 = true :=
    List.any_eq_true.mpr ⟨_, hts1, List.any_eq_true.mpr ⟨_, hts2, hint12⟩⟩
  have hR21 : itemInteracts conn item2 item1 = true :=
    List.any_eq_true.mpr ⟨_, hts2, List.any_eq_true.mpr ⟨_, hts1, hint21⟩⟩
  have hne : item1 ≠ item2 := by
    intro heq
    apply hk
    have := congrArg (fun i => i.1.1) heq
    simpa [hitem1, hitem2] using this
  obtain ⟨c, hc, hin1, hin2⟩ := buildClusters_joins hm1 hm2 hne hR12 hR21
  exact ⟨c, hc, ⟨item1, hin1, rfl⟩, ⟨item2, hin2, rfl⟩⟩

/-- Concrete instance of the hierarchical-merge correctness: two sibling
placements of a one-shape cell, shifted so the shapes overlap, resolve to
one net. -/
theorem hier_merge_correct_witness :
    SameNet (Connectivity.ofCalls [ConnCall.intra 0]) []
      [⟨⟨0, 0⟩, [⟨0, ⟨0, 0, 10, 10⟩⟩]⟩, ⟨⟨5, 0⟩, [⟨0, ⟨0, 0, 10, 10⟩⟩]⟩]
      (ClusterSrc.childInst 0, 0) (ClusterSrc.childInst 1, 0) :=
  @hier_merge_correct (Connectivity.ofCalls [ConnCall.intra 0])
    (Connectivity.ofCalls_symm [ConnCall.intra 0]) []
    [⟨⟨0, 0⟩, [⟨0, ⟨0, 0, 10, 10⟩⟩]⟩, ⟨⟨5, 0⟩, [⟨0, ⟨0, 0, 10, 10⟩⟩]⟩]
    0 1 ⟨⟨0, 0⟩, [⟨0, ⟨0, 0, 10, 10⟩⟩]⟩ ⟨⟨5, 0⟩, [⟨0, ⟨0, 0, 10, 10⟩⟩]⟩
    (by decide) (by decide) (by decide)
    0 0 [⟨0, ⟨0, 0, 10, 10⟩⟩] [⟨0, ⟨0, 0, 10, 10⟩⟩]
    (by decide) (by decide)
    ⟨0, ⟨0, 0, 10, 10⟩⟩ ⟨0, ⟨0, 0, 10, 10⟩⟩
    (by decide) (by decide) (by decide) (by decide)

/-- The fragments of a polygon cover exactly its parts, in order. -/
theorem splitParts_flatten (ar : ℚ) (mvc : Nat) (bs : List Box) :
    (splitParts ar mvc bs).flatten = bs := by
  suffices h : ∀ (n : Nat) (bs : List Box), bs.length ≤ n →
      (splitParts ar mvc bs).flatten = bs by
    exact h bs.length bs le_rfl
  intro n
  induction n with
  | zero =>
    intro bs hb
    rw [splitParts]
    have : bs.length = 0 := Nat.le_zero.mp hb
    split
    · omega
    · simp
  | succ n ih =>
    intro bs hb
    rw [splitParts]
    split
    · rename_i hcond
      rw [List.flatten_append]
      rw [ih (bs.take (bs.length / 2)) (by simp only [List.length_take]; omega)]
      rw [ih (bs.drop (bs.length / 2)) (by simp only [List.length_drop]; omega)]
      exact List.take_append_drop _ bs
    · simp

theorem any_flatten {α : Type} (ps : List (List α)) (g : α → Bool) :
    ps.any (fun f => f.any g) = ps.flatten.any g := by
  induction ps with
  | nil => simp
  | cons f rest ih =>
    simp only [List.any_cons, List.flatten_cons, List.any_append]
    rw [ih]

/-- Fragment-level interaction testing agrees with whole-polygon
interaction testing, for every threshold setting. -/
theorem polyInteractsSplit_eq (ar : ℚ) (mvc : Nat) (conn : Connectivity) :
    polyInteractsSplit ar mvc conn = polyInteracts conn := by
  funext p q
  simp only [polyInteractsSplit, polyInteracts]
  congr 1
  rw [any_flatten, splitParts_flatten]
  congr 1
  funext a
  rw [any_flatten, splitParts_flatten]

/-- **C5.** Splitting never changes connectivity: for every input design
(list of polygons), every connectivity graph and every setting of the
area-ratio and max-vertex-count split thresholds, the clusters — and hence
the nets produced by `extract_netlist` — computed with fragment-level
interaction testing are identical to those computed with no splitting. -/
theorem splitting_preserves_connectivity (ar : ℚ) (mvc : Nat)
    (conn : Connectivity) (shapes : List Polygon) :
    buildClusters (polyInteractsSplit ar mvc conn) shapes
      = buildClusters (polyInteracts conn) shapes := by
  rw [polyInteractsSplit_eq]

/-! Auxiliary list lemmas for the termination / fixed-point argument. -/

theorem sum_map_filter_le {α : Type} (f : α → Nat) (p : α → Bool) (l : List α) :
    ((l.filter p).map f).sum ≤ (l.map f).sum := by
  induction l with
  | nil => simp
  | cons x l ih =>
    by_cases hp : p x = true
    · rw [List.filter_cons_of_pos hp]
      simp only [List.map_cons, List.sum_cons]
      omega
    · rw [List.filter_cons_of_neg (by simp [hp])]
      simp only [List.map_cons, List.sum_cons]
      omega

theorem pointwise_of_sum_map_eq {α : Type} (f g : α → Nat) (l : List α)
    (hle : ∀ a ∈ l, f a ≤ g a) (hsum : (l.map f).sum = (l.map g).sum) :
    ∀ a ∈ l, f a = g a := by
  induction l with
  | nil => intro a ha; cases ha
  | cons x l ih =>
    simp only [List.map_cons, List.sum_cons] at hsum
    have hx : f x ≤ g x := hle x (by simp)
    have htl : (l.map f).sum ≤ (l.map g).sum :=
      List.sum_le_sum (fun a ha => hle a (by simp [ha]))
    intro a ha
    rcases List.mem_cons.mp ha with rfl | ha'
    · omega
    · exact ih (fun b hb => hle b (by simp [hb])) (by omega) a ha'

theorem filter_eq_self_of_sum_map_eq {α : Type} (f : α → Nat) (p : α → Bool)
    (l : List α) (hpos : ∀ a ∈ l, 1 ≤ f a)
    (hsum : ((l.filter p).map f).sum = (l.map f).sum) :
    l.filter p = l := by
  induction l with
  | nil => rfl
  | cons x l ih =>
    by_cases hp : p x = true
    · rw [List.filter_cons_of_pos hp] at hsum ⊢
      simp only [List.map_cons, List.sum_cons] at hsum
      rw [ih (fun a ha => hpos a (by simp [ha])) (by omega)]
    · rw [List.filter_cons_of_neg (by simp [hp])] at hsum
      have hle := sum_map_filter_le f p l
      have hx := hpos x (by simp)
      simp only [List.map_cons, List.sum_cons] at hsum
      omega

theorem filter_eq_self_of_length_eq {α : Type} (p : α → Bool) (l : List α)
    (h : (l.filter p).length = l.length) : l.filter p = l := by
  induction l with
  | nil => rfl
  | cons x l ih =>
    by_cases hp : p x = true
    · rw [List.filter_cons_of_pos hp] at h ⊢
      simp only [List.length_cons] at h
      rw [ih (by omega)]
    · rw [List.filter_cons_of_neg (by simp [hp])] at h
      have := List.length_filter_le p l
      simp only [List.length_cons] at h
      omega

theorem map_eq_self_of_pointwise {α : Type} (f : α → α) (l : List α)
    (h : ∀ a ∈ l, f a = a) : l.map f = l := by
  induction l with
  | nil => rfl
  | cons x l ih =>
    simp only [List.map_cons]
    rw [h x (by simp), ih (fun a ha => h a (by simp [ha]))]

/-! Per-circuit facts. -/

theorem purgeNets_csize_le (c : Circuit) : (purgeNets c).csize ≤ c.csize := by
  simp only [purgeNets, Circuit.csize]
  have := List.length_filter_le (fun n => c.netUsed n.id) c.nets
  omega

theorem purgeNets_eq_of_csize_eq {c : Circuit}
    (h : (purgeNets c).csize = c.csize) : purgeNets c = c := by
  simp only [purgeNets, Circuit.csize] at h ⊢
  have hlen : (c.nets.filter (fun n => c.netUsed n.id)).length = c.nets.length := by
    omega
  rw [filter_eq_self_of_length_eq _ _ hlen]

theorem dropDeadSubs_csize_le (removed : List String) (c : Circuit) :
    (dropDeadSubs removed c).csize ≤ c.csize := by
  simp only [dropDeadSubs, Circuit.csize]
  have := List.length_filter_le (fun s => !(removed.contains s.circuitName)) c.subcircuits
  omega

theorem dropDeadSubs_eq_of_csize_eq {removed : List String} {c : Circuit}
    (h : (dropDeadSubs removed c).csize = c.csize) : dropDeadSubs removed c = c := by
  simp only [dropDeadSubs, Circuit.csize] at h ⊢
  have hlen : (c.subcircuits.filter (fun s => !(removed.contains s.circuitName))).length
      = c.subcircuits.length := by
    omega
  rw [filter_eq_self_of_length_eq _ _ hlen]

theorem csize_pos (c : Circuit) : 1 ≤ c.csize := by
  simp only [Circuit.csize]
  omega

/-! The purge pass never grows the removal potential, and a pass that does
not shrink it changes nothing. -/

theorem purgeStep_size_le (nl : Netlist) : (purgeStep nl).size ≤ nl.size := by
  simp only [purgeStep, Netlist.size]
  set cs := nl.circuits.map purgeNets with hcs
  set removed := (cs.filter (fun c => c.isEmptyCircuit)).map (fun c => c.name) with hrem
  set kept := cs.filter (fun c => !c.isEmptyCircuit) with hkept
  have h5 : ((kept.map (dropDeadSubs removed)).map Circuit.csize).sum
      ≤ (kept.map Circuit.csize).sum := by
    rw [List.map_map]
    exact List.sum_le_sum (fun c _ => dropDeadSubs_csize_le removed c)
  have h3 : (kept.map Circuit.csize).sum ≤ (cs.map Circuit.csize).sum :=
    sum_map_filter_le Circuit.csize _ cs
  have h2 : (cs.map Circuit.csize).sum ≤ (nl.circuits.map Circuit.csize).sum := by
    rw [hcs, List.map_map]
    exact List.sum_le_sum (fun c _ => purgeNets_csize_le c)
  omega

theorem purgeStep_eq_of_size_eq {nl : Netlist}
    (h : (purgeStep nl).size = nl.size) :
    purgeStep nl = nl ∧ (∀ c ∈ nl.circuits, purgeNets c = c) ∧
      (∀ c ∈ nl.circuits, c.isEmptyCircuit = false) := by
  simp only [purgeStep, Netlist.size] at h
  set cs := nl.circuits.map purgeNets with hcs
  set removed := (cs.filter (fun c => c.isEmptyCircuit)).map (fun c => c.name) with hrem
  set kept := cs.filter (fun c => !c.isEmptyCircuit) with hkept
  have h5 : ((kept.map (dropDeadSubs removed)).map Circuit.csize).sum
      ≤ (kept.map Circuit.csize).sum := by
    rw [List.map_map]
    exact List.sum_le_sum (fun c _ => dropDeadSubs_csize_le removed c)
  have h3 : (kept.map Circuit.csize).sum ≤ (cs.map Circuit.csize).sum :=
    sum_map_filter_le Circuit.csize _ cs
  have h2 : (cs.map Circuit.csize).sum ≤ (nl.circuits.map Circuit.csize).sum := by
    rw [hcs, List.map_map]
    exact List.sum_le_sum (fun c _ => purgeNets_csize_le c)
  -- all three inequalities are equalities
  have e5 : ((kept.map (dropDeadSubs removed)).map Circuit.csize).sum
      = (kept.map Circuit.csize).sum := by omega
  have e3 : (kept.map Circuit.csize).sum = (cs.map Circuit.csize).sum := by omega
  have e2 : (cs.map Circuit.csize).sum = (nl.circuits.map Circuit.csize).sum := by omega
  -- the net-purge pass fixed every circuit
  have hnets : ∀ c ∈ nl.circuits, purgeNets c = c := by
    intro c hc
    apply purgeNets_eq_of_csize_eq
    have := pointwise_of_sum_map_eq (fun c => (purgeNets c).csize) Circuit.csize
      nl.circuits (fun c _ => purgeNets_csize_le c) (by rw [hcs, List.map_map] at e2; exact e2)
    exact this c hc
  have hcs_id : cs = nl.circuits := by
    rw [hcs]
    exact map_eq_self_of_pointwise purgeNets nl.circuits hnets
  -- no circuit was dropped
  have hkept_id : kept = cs := by
    rw [hkept]
    exact filter_eq_self_of_sum_map_eq Circuit.csize _ cs (fun c _ => csize_pos c) e3
  -- no subcircuit instance was dropped
  have hsubs : ∀ c ∈ kept, dropDeadSubs removed c = c := by
    intro c hc
    apply dropDeadSubs_eq_of_csize_eq
    have := pointwise_of_sum_map_eq (fun c => (dropDeadSubs removed c).csize) Circuit.csize
      kept (fun c _ => dropDeadSubs_csize_le removed c) (by rw [List.map_map] at e5; exact e5)
    exact this c hc
  have hfinal : kept.map (dropDeadSubs removed) = kept :=
    map_eq_self_of_pointwise _ kept hsubs
  refine ⟨?_, hnets, ?_⟩
  · show (⟨kept.map (dropDeadSubs removed)⟩ : Netlist) = nl
    rw [hfinal, hkept_id, hcs_id]
  · intro c hc
    have hmem : c ∈ cs.filter (fun c => !c.isEmptyCircuit) := by
      rw [← hkept, hkept_id, hcs_id]
      exact hc
    have := (List.mem_filter.mp hmem).2
    simpa using this

theorem purgeStep_size_lt {nl : Netlist} (h : purgeStep nl ≠ nl) :
    (purgeStep nl).size < nl.size := by
  have hle := purgeStep_size_le nl
  rcases Nat.lt_or_ge (purgeStep nl).size nl.size with hlt | hge
  · exact hlt
  · exact absurd (purgeStep_eq_of_size_eq (by omega)).1 h

/-- With enough fuel, the iteration reaches a fixed point of the pass. -/
theorem purgeAux_fix (fuel : Nat) (nl : Netlist) (h : nl.size ≤ fuel) :
    purgeStep (purgeAux fuel nl) = purgeAux fuel nl := by
  induction fuel generalizing nl with
  | zero =>
    simp only [purgeAux]
    have h0 : nl.size = 0 := by omega
    have := purgeStep_size_le nl
    exact (purgeStep_eq_of_size_eq (by omega)).1
  | succ fuel ih =>
    simp only [purgeAux]
    by_cases heq : purgeStep nl = nl
    · simp only [heq, if_pos rfl]
      exact heq
    · rw [if_neg heq]
      have hlt := purgeStep_size_lt heq
      exact ih (purgeStep nl) (by omega)

/-- Iterating from a fixed point of the pass does nothing. -/
theorem purgeAux_of_fix {nl : Netlist} (h : purgeStep nl = nl) (fuel : Nat) :
    purgeAux fuel nl = nl := by
  cases fuel with
  | zero => rfl
  | succ fuel => simp [purgeAux, h]

/-- **C4.** `purge` is idempotent: running `purge` on an already-purged
netlist changes nothing; moreover after one `purge` call no floating net
(one without device/pin/subcircuit attachment) and no entirely empty
circuit remains. -/
theorem purge_idempotent (nl : Netlist) :
    (nl.purge.purge = nl.purge) ∧
      (∀ c ∈ nl.purge.circuits, (∀ net ∈ c.nets, c.netUsed net.id = true)
        ∧ c.isEmptyCircuit = false) := by
  have hfix : purgeStep nl.purge = nl.purge := purgeAux_fix nl.size nl le_rfl
  constructor
  · show purgeAux nl.purge.size nl.purge = nl.purge
    exact purgeAux_of_fix hfix _
  · intro c hc
    obtain ⟨-, hnets, hnonempty⟩ :=
      purgeStep_eq_of_size_eq (congrArg Netlist.size hfix)
    constructor
    · intro net hnet
      have hp := hnets c hc
      simp only [purgeNets, Circuit.mk.injEq] at hp
      have hfiltered : c.nets.filter (fun n => c.netUsed n.id) = c.nets := by
        cases c
        simpa [purgeNets] using hp
      exact (List.filter_eq_self.mp hfiltered) net hnet
    · exact hnonempty c hc

/-! Round-trip lemmas, innermost first. -/

theorem readNum_write (n : Nat) (rest : List Tok) :
    readNum (Tok.num n :: rest) = some (n, rest) := rfl

theorem readStr_write (s : String) (rest : List Tok) :
    readStr (Tok.str s :: rest) = some (s, rest) := rfl

theorem readCountedAux_write {α : Type} (w : α → List Tok)
    (r : List Tok → Option (α × List Tok))
    (hook : ∀ (a : α) (rest : List Tok), r (w a ++ rest) = some (a, rest))
    (l : List α) (rest : List Tok) :
    readCountedAux r l.length ((l.map w).flatten ++ rest) = some (l, rest) := by
  induction l with
  | nil => rfl
  | cons a l ih =>
    simp only [List.map_cons, List.flatten_cons, List.length_cons, List.append_assoc]
    simp only [readCountedAux, hook a ((l.map w).flatten ++ rest), ih]

theorem readCounted_write {α : Type} (w : α → List Tok)
    (r : List Tok → Option (α × List Tok))
    (hook : ∀ (a : α) (rest : List Tok), r (w a ++ rest) = some (a, rest))
    (l : List α) (rest : List Tok) :
    readCounted r (writeCounted w l ++ rest) = some (l, rest) := by
  simp only [writeCounted, readCounted, List.cons_append, readNum]
  exact readCountedAux_write w r hook l rest

theorem readNet_write (n : Net) (rest : List Tok) :
    readNet (writeNet n ++ rest) = some (n, rest) := rfl

theorem readPin_write (p : Pin) (rest : List Tok) :
    readPin (writePin p ++ rest) = some (p, rest) := rfl

theorem readTerminal_write (t : String × Nat) (rest : List Tok) :
    readTerminal (writeTerminal t ++ rest) = some (t, rest) := rfl

theorem readNum_single_write (n : Nat) (rest : List Tok) :
    readNum ([Tok.num n] ++ rest) = some (n, rest) := rfl

theorem readDevice_write (d : Device) (rest : List Tok) :
    readDevice (writeDevice d ++ rest) = some (d, rest) := by
  simp only [writeDevice, List.cons_append, readDevice, readStr]
  rw [readCounted_write writeTerminal readTerminal readTerminal_write]

theorem readSubCircuit_write (s : SubCircuit) (rest : List Tok) :
    readSubCircuit (writeSubCircuit s ++ rest) = some (s, rest) := by
  simp only [writeSubCircuit, List.cons_append, readSubCircuit, readStr]
  rw [readCounted_write (fun n => [Tok.num n]) readNum readNum_single_write]

theorem readCircuit_write (c : Circuit) (rest : List Tok) :
    readCircuit (writeCircuit c ++ rest) = some (c, rest) := by
  simp only [writeCircuit, List.cons_append, List.append_assoc, readCircuit, readStr,
    readCounted_write writeNet readNet readNet_write,
    readCounted_write writePin readPin readPin_write,
    readCounted_write writeDevice readDevice readDevice_write,
    readCounted_write writeSubCircuit readSubCircuit readSubCircuit_write]

/-- **C3.** Round-trip fidelity of the textual serialization: re-importing
the exported text reconstructs the netlist exactly — same circuits, nets,
devices and pin/terminal bindings; and the exported text of two netlists is
identical precisely when the netlists are identical, which is what makes a
byte-compare against a golden file a sound acceptance criterion. -/
theorem netlist_roundtrip (nl a b : Netlist) :
    readNetlist (writeNetlist nl) = some nl ∧
      (writeNetlist a = writeNetlist b ↔ a = b) := by
  have hrt : ∀ m : Netlist, readNetlist (writeNetlist m) = some m := by
    intro m
    have h := readCounted_write writeCircuit readCircuit readCircuit_write m.circuits []
    rw [List.append_nil] at h
    simp only [readNetlist, writeNetlist, h]
  refine ⟨hrt nl, ?_, fun h => by rw [h]⟩
  intro h
  have ha := hrt a
  rw [h, hrt b] at ha
  exact (Option.some_inj.mp ha).symm

/-- Concrete instance: a netlist with a net, a pin, a device and a
subcircuit survives the export/import round trip unchanged. -/
theorem netlist_roundtrip_witness :
    readNetlist (writeNetlist
        ⟨[⟨"TOP", [⟨0, "VDD"⟩], [⟨"p0", 0⟩], [⟨"D1", "PMOS", [("G", 0)]⟩],
          [⟨"SUB", [0]⟩]⟩]⟩)
      = some ⟨[⟨"TOP", [⟨0, "VDD"⟩], [⟨"p0", 0⟩], [⟨"D1", "PMOS", [("G", 0)]⟩],
          [⟨"SUB", [0]⟩]⟩]⟩ :=
  (netlist_roundtrip
    ⟨[⟨"TOP", [⟨0, "VDD"⟩], [⟨"p0", 0⟩], [⟨"D1", "PMOS", [("G", 0)]⟩],
      [⟨"SUB", [0]⟩]⟩]⟩
    ⟨[]⟩ ⟨[]⟩).1

/-- Concrete instance: purging a netlist holding one floating net (and
then an emptied circuit) reaches a state a second purge leaves unchanged. -/
theorem purge_idempotent_witness :
    Netlist.purge (Netlist.purge ⟨[⟨"A", [⟨0, "n0"⟩], [], [], []⟩]⟩)
      = Netlist.purge ⟨[⟨"A", [⟨0, "n0"⟩], [], [], []⟩]⟩ :=
  (purge_idempotent ⟨[⟨"A", [⟨0, "n0"⟩], [], [], []⟩]⟩).1

mutual
/-- Soundness: a probed net always belongs to a shape of the probed layer
touching the (recursively transformed) point. -/
theorem probeNet_sound (L : Nat) :
    ∀ (c : PCell) (p : Pt) (n : Nat), probeNet L p c = some n → ProbeFound L c p n
  | .mk shapes insts, p, n, h => by
    rw [probeNet] at h
    cases hfind : shapes.find? (probePred L p) with
    | some s =>
      rw [hfind] at h
      obtain rfl : s.net = n := by simpa using h
      have hmem := List.mem_of_find?_eq_some hfind
      have hpred := List.find?_some hfind
      simp only [probePred, Bool.and_eq_true, beq_iff_eq] at hpred
      exact ProbeFound.here hmem hpred.1 hpred.2
    | none =>
      rw [hfind] at h
      obtain ⟨t, child, hmem, hcov, hrec⟩ := probeNetInsts_sound L insts p n h
      exact ProbeFound.desc hmem hcov hrec
theorem probeNetInsts_sound (L : Nat) :
    ∀ (il : InstList) (p : Pt) (n : Nat), probeNetInsts L p il = some n →
      ∃ (t : Trans) (child : PCell), (t, child) ∈ il.toList ∧
        coversPt (Option.map t.applyBox (PCell.bbox child)) p = true ∧
        ProbeFound L child (t.invPt p) n
  | .nil, p, n, h => by
    rw [probeNetInsts] at h
    cases h
  | .cons t child rest, p, n, h => by
    rw [probeNetInsts] at h
    by_cases hcov : coversPt (Option.map t.applyBox (PCell.bbox child)) p = true
    · rw [if_pos hcov] at h
      cases hres : probeNet L (t.invPt p) child with
      | some n' =>
        rw [hres] at h
        have hnn : n' = n := by simpa using h
        subst hnn
        exact ⟨t, child, by simp [InstList.toList], hcov,
          probeNet_sound L child (t.invPt p) n' hres⟩
      | none =>
        rw [hres] at h
        obtain ⟨t', child', hmem, hcov', hrec⟩ := probeNetInsts_sound L rest p n h
        exact ⟨t', child', by simp [InstList.toList, hmem], hcov', hrec⟩
    · rw [if_neg hcov] at h
      obtain ⟨t', child', hmem, hcov', hrec⟩ := probeNetInsts_sound L rest p n h
      exact ⟨t', child', by simp [InstList.toList, hmem], hcov', hrec⟩
end


mutual
/-- Completeness: when the probe returns none, no net is reachable by the
search. -/
theorem probeNet_complete (L : Nat) :
    ∀ (c : PCell) (p : Pt), probeNet L p c = none → ∀ n, ¬ ProbeFound L c p n
  | .mk shapes insts, p, h, n, hf => by
    rw [probeNet] at h
    cases hfind : shapes.find? (probePred L p) with
    | some s => rw [hfind] at h; cases h
    | none =>
      rw [hfind] at h
      cases hf with
      | here hmem hlay htouch =>
        have := List.find?_eq_none.mp hfind _ hmem
        simp only [probePred, Bool.and_eq_true, beq_iff_eq] at this
        exact this ⟨hlay, htouch⟩
      | desc hmem hcov hrec =>
        exact probeNetInsts_complete L insts p h _ _ hmem hcov _ hrec
theorem probeNetInsts_complete (L : Nat) :
    ∀ (il : InstList) (p : Pt), probeNetInsts L p il = none →
      ∀ (t : Trans) (child : PCell), (t, child) ∈ il.toList →
        coversPt (Option.map t.applyBox (PCell.bbox child)) p = true →
        ∀ n, ¬ ProbeFound L child (t.invPt p) n
  | .nil, p, h, t, child, hmem => by cases hmem
  | .cons t0 child0 rest, p, h, t, child, hmem => by
    rw [probeNetInsts] at h
    intro hcov n hf
    cases hcase : (if coversPt (Option.map t0.applyBox (PCell.bbox child0)) p
        then probeNet L (t0.invPt p) child0 else none) with
    | some n' => rw [hcase] at h; cases h
    | none =>
      rw [hcase] at h
      simp only [InstList.toList, List.mem_cons, Prod.mk.injEq] at hmem
      rcases hmem with ⟨ht, hc⟩ | hmem'
      · subst ht
        subst hc
        rw [if_pos hcov] at hcase
        exact probeNet_complete L child (t.invPt p) hcase n hf
      · exact probeNetInsts_complete L rest p h t child hmem' hcov n hf
end


/-- **C8.** `probe_net` behaviour: (i) when a shape of the probed region
touching the point exists in the current cell, the probe returns that
(first found) shape's net — a shape of the probed layer, never a different
overlapping-layer net; (ii) when no such shape exists it descends into the
child instances whose transformed bounding area covers the point; (iii) any
returned net belongs to a shape of the probed layer touching the
recursively transformed point; (iv) it returns none exactly when the
search finds no net; (v) the micrometer-unit variant agrees with the
database-unit variant on the converted point. -/
theorem probe_net_correct (L : Nat) (p : Pt) (c : PCell) (dbu : ℚ) (q : DPt) :
    (∀ s, c.shapes.find? (probePred L p) = some s →
        probeNet L p c = some s.net ∧ s.layer = L ∧ boxContains s.box p = true)
    ∧ (c.shapes.find? (probePred L p) = none →
        probeNet L p c = probeNetInsts L p c.insts)
    ∧ (∀ n, probeNet L p c = some n → ProbeFound L c p n)
    ∧ (probeNet L p c = none → ∀ n, ¬ ProbeFound L c p n)
    ∧ (toDbu dbu q = p → probeNetUm dbu L q c = probeNet L p c) := by
  obtain ⟨shapes, insts⟩ := c
  refine ⟨?_, ?_, ?_, ?_, ?_⟩
  · intro s hs
    have hpred := List.find?_some hs
    simp only [probePred, Bool.and_eq_true, beq_iff_eq] at hpred
    refine ⟨?_, hpred.1, hpred.2⟩
    rw [probeNet]
    have hs' : shapes.find? (probePred L p) = some s := hs
    rw [hs']
  · intro hnone
    rw [probeNet]
    have hnone' : shapes.find? (probePred L p) = none := hnone
    rw [hnone']
    rfl
  · exact fun n h => probeNet_sound L _ p n h
  · exact fun h n => probeNet_complete L _ p h n
  · intro hq
    rw [probeNetUm, hq]

/-- Concrete probe: the point lies on a layer-2 shape of net 7 and also on
a layer-1 shape of net 3; probing layer 2 returns net 7 in both the
database-unit and the micrometer-unit variant. -/
theorem probe_net_correct_witness :
    probeNet 2 ⟨5, 5⟩
        (.mk [⟨2, ⟨0, 0, 10, 10⟩, 7⟩, ⟨1, ⟨0, 0, 10, 10⟩, 3⟩] .nil) = some 7
      ∧ probeNetUm 1 2 ⟨5, 5⟩
        (.mk [⟨2, ⟨0, 0, 10, 10⟩, 7⟩, ⟨1, ⟨0, 0, 10, 10⟩, 3⟩] .nil) = some 7 := by
  have h := probe_net_correct 2 ⟨5, 5⟩
    (.mk [⟨2, ⟨0, 0, 10, 10⟩, 7⟩, ⟨1, ⟨0, 0, 10, 10⟩, 3⟩] .nil) 1 ⟨5, 5⟩
  refine ⟨(h.1 ⟨2, ⟨0, 0, 10, 10⟩, 7⟩ (by decide)).1, ?_⟩
  rw [h.2.2.2.2 (by simp only [toDbu]; norm_num [Pt.mk.injEq])]
  exact (h.1 ⟨2, ⟨0, 0, 10, 10⟩, 7⟩ (by decide)).1

/-- **C1 (counterexample).** The netlist query is listed among the Result
Retrieval operations, yet calling it before `extract_netlist` has run does
not fail with a usage error: per the header (line 250, "0 if no extraction
happened yet") it silently returns a null netlist. -/
theorem netlist_query_before_extraction_no_error :
    (L2NState.init []).m_netlist_extracted = false ∧
      runResultOp ResultOp.netlistQuery (L2NState.init [])
        = Except.ok (ResultVal.netlistVal none) :=
  ⟨rfl, rfl⟩

/-- **C1 (amended).** Calling `probe_net`, `shapes_of_net`, `build_net` or
`build_all_nets` before `extract_netlist` has run fails immediately and
synchronously with a usage error, never silently; the netlist query is the
exception — it returns a null netlist instead of raising (see C10). -/
theorem result_ops_require_extraction (op : ResultOp) (st : L2NState)
    (hop : op ≠ ResultOp.netlistQuery) (hext : st.m_netlist_extracted = false) :
    runResultOp op st = Except.error UsageError.notExtracted := by
  cases op with
  | netlistQuery => exact absurd rfl hop
  | probeNetOp L p => simp [runResultOp, hext]
  | shapesOfNetOp i L => simp [runResultOp, hext]
  | buildNetOp i => simp [runResultOp, hext]
  | buildAllNetsOp => simp [runResultOp, hext]

/-- Concrete instance: probing a fresh session fails with a usage error. -/
theorem result_ops_require_extraction_witness :
    runResultOp (ResultOp.probeNetOp 0 ⟨0, 0⟩) (L2NState.init [])
      = Except.error UsageError.notExtracted :=
  result_ops_require_extraction (ResultOp.probeNetOp 0 ⟨0, 0⟩) (L2NState.init [])
    (by decide) rfl

/-- **C7.** `extract_devices` validates the role mapping at call time: a
mapping in which some declared role references no region fails immediately
with a usage error — the call returns the error synchronously, before any
traversal, leaving the session unchanged; a mapping covering every
declared role succeeds, and extra role regions not used for terminal
geometry (supplemental recognition context only) are legal and never cause
a failure. -/
theorem extract_devices_role_check (ex : DeviceExtractor)
    (layers : List (String × Region)) (st : L2NState) :
    ((∃ role ∈ ex.requiredRoles, ∀ kv ∈ layers, kv.1 ≠ role) →
        extract_devices ex layers st = Except.error UsageError.malformedRoleMapping)
    ∧ ((∀ role ∈ ex.requiredRoles, ∃ kv ∈ layers, kv.1 = role) →
        extract_devices ex layers st
          = Except.ok { st with
              m_dlrefs := (layers.map (fun kv => kv.2.id)) ++ st.m_dlrefs }) := by
  constructor
  · rintro ⟨role, hrole, hmiss⟩
    rw [extract_devices, if_neg]
    intro hall
    have hany := List.all_eq_true.mp hall role hrole
    obtain ⟨kv, hkv, heq⟩ := List.any_eq_true.mp hany
    exact hmiss kv hkv (by simpa using heq)
  · intro hcov
    rw [extract_devices, if_pos]
    apply List.all_eq_true.mpr
    intro role hrole
    obtain ⟨kv, hkv, heq⟩ := hcov role hrole
    exact List.any_eq_true.mpr ⟨kv, hkv, by simpa using heq⟩

/-- Concrete instance, after the unit test: the PMOS extractor declares
roles "SD" and "G"; a mapping with the extra "P" entry (terminal-shape
context only) succeeds, a mapping missing "G" fails at call time. -/
theorem extract_devices_role_check_witness :
    extract_devices ⟨"PMOS", ["SD", "G"]⟩
        [("SD", ⟨0⟩), ("G", ⟨1⟩), ("P", ⟨2⟩)] (L2NState.init [])
      = Except.ok { L2NState.init [] with m_dlrefs := [0, 1, 2] } ∧
    extract_devices ⟨"PMOS", ["SD", "G"]⟩ [("SD", ⟨0⟩)] (L2NState.init [])
      = Except.error UsageError.malformedRoleMapping := by
  constructor
  · rw [(extract_devices_role_check ⟨"PMOS", ["SD", "G"]⟩
      [("SD", ⟨0⟩), ("G", ⟨1⟩), ("P", ⟨2⟩)] (L2NState.init [])).2 (by decide)]
    rfl
  · exact (extract_devices_role_check ⟨"PMOS", ["SD", "G"]⟩
      [("SD", ⟨0⟩)] (L2NState.init [])).1 (by decide)

theorem resolveRoles_mono (c' c : Nat → Option Region)
    (hsub : ∀ i r, c' i = some r → c i = some r) :
    ∀ (roles : List (String × Nat)) (layers : List (String × Region)),
      resolveRoles c' roles = some layers → resolveRoles c roles = some layers
  | [], _, h => h
  | (nm, slot) :: rest, layers, h => by
    rw [resolveRoles] at h ⊢
    cases hc : c' slot with
    | none => rw [hc] at h; cases h
    | some r =>
      rw [hc] at h
      rw [hsub slot r hc]
      cases hrest : resolveRoles c' rest with
      | none => rw [hrest] at h; cases h
      | some more =>
        rw [hrest] at h
        rw [resolveRoles_mono c' c hsub rest more hrest]
        exact h

/-- Freeing a handle leaves the orchestrator state untouched and only
shrinks the caller table. -/
theorem free_step_sim (slot : Nat) {w' w : World} (hsim : WSim w' w) :
    WSim (stepCmd (.freeRegionCmd slot) w') w := by
  obtain ⟨hl, hsub⟩ := hsim
  refine ⟨hl, ?_⟩
  intro i r h
  simp only [stepCmd] at h
  by_cases hi : i = slot
  · rw [if_pos hi] at h; cases h
  · rw [if_neg hi] at h; exact hsub i r h

/-- Any non-free command acts identically on the two worlds of a
simulation, provided its handles resolve in the freed world. -/
theorem stepCmd_sim (cmd : Cmd) (hnf : cmd.isFree = false) {w' w : World}
    (hsim : WSim w' w) (hok : cmdOk w' cmd = true) :
    WSim (stepCmd cmd w') (stepCmd cmd w) := by
  obtain ⟨hl, hsub⟩ := hsim
  cases cmd with
  | makeLayerCmd slot =>
    constructor
    · simp only [stepCmd, hl]
    · intro i r h
      simp only [stepCmd] at h ⊢
      by_cases hi : i = slot
      · rw [if_pos hi] at h ⊢
        rw [hl] at h
        exact h
      · rw [if_neg hi] at h ⊢
        exact hsub i r h
  | freeRegionCmd slot => cases hnf
  | connectIntraCmd slot =>
    obtain ⟨r, hr⟩ := Option.isSome_iff_exists.mp hok
    have hr2 := hsub slot r hr
    constructor
    · simp only [stepCmd, hr, hr2, hl]
    · intro i rr h
      simp only [stepCmd, hr, hr2] at h ⊢
      exact hsub i rr h
  | connectInterCmd s1 s2 =>
    simp only [cmdOk, Bool.and_eq_true] at hok
    obtain ⟨a, ha⟩ := Option.isSome_iff_exists.mp hok.1
    obtain ⟨b, hb⟩ := Option.isSome_iff_exists.mp hok.2
    have ha2 := hsub s1 a ha
    have hb2 := hsub s2 b hb
    constructor
    · simp only [stepCmd, ha, hb, ha2, hb2, hl]
    · intro i rr h
      simp only [stepCmd, ha, hb, ha2, hb2] at h ⊢
      exact hsub i rr h
  | connectGlobalCmd slot gn =>
    obtain ⟨r, hr⟩ := Option.isSome_iff_exists.mp hok
    have hr2 := hsub slot r hr
    constructor
    · simp only [stepCmd, hr, hr2, hl]
    · intro i rr h
      simp only [stepCmd, hr, hr2] at h ⊢
      exact hsub i rr h
  | extractDevicesCmd ex roles =>
    obtain ⟨layers, hres⟩ := Option.isSome_iff_exists.mp hok
    have hres2 := resolveRoles_mono _ _ hsub roles layers hres
    have hcall : extract_devices ex layers w'.l2n = extract_devices ex layers w.l2n := by
      rw [hl]
    cases hed : extract_devices ex layers w.l2n with
    | ok st' =>
      constructor
      · simp only [stepCmd, hres, hres2, hcall, hed]
      · intro i rr h
        simp only [stepCmd, hres, hres2, hcall, hed] at h ⊢
        exact hsub i rr h
    | error e =>
      constructor
      · simp only [stepCmd, hres, hres2, hcall, hed, hl]
      · intro i rr h
        simp only [stepCmd, hres, hres2, hcall, hed] at h ⊢
        exact hsub i rr h
  | extractNetlistCmd =>
    have hcall : extract_netlist w'.l2n = extract_netlist w.l2n := by rw [hl]
    cases hen : extract_netlist w.l2n with
    | ok st' =>
      constructor
      · simp only [stepCmd, hcall, hen]
      · intro i rr h
        simp only [stepCmd, hcall, hen] at h ⊢
        exact hsub i rr h
    | error e =>
      constructor
      · simp only [stepCmd, hcall, hen, hl]
      · intro i rr h
        simp only [stepCmd, hcall, hen] at h ⊢
        exact hsub i rr h

/-- Runs related by freeing end in the same orchestrator state. -/
theorem runScript_sim (cmds' : List Cmd) :
    ∀ (cmds : List Cmd) (w' w : World),
      cmds'.filter (fun c => !c.isFree) = cmds →
      WSim w' w →
      runOk cmds' w' = true →
      (runScript cmds' w').l2n = (runScript cmds w).l2n := by
  induction cmds' with
  | nil =>
    intro cmds w' w hf hsim _
    rw [← hf]
    exact hsim.1
  | cons c rest ih =>
    intro cmds w' w hf hsim hok
    rw [runOk, Bool.and_eq_true] at hok
    by_cases hfree : c.isFree = true
    · rw [List.filter_cons_of_neg (by simp [hfree])] at hf
      obtain ⟨slot, rfl⟩ : ∃ slot, c = Cmd.freeRegionCmd slot := by
        cases c <;> simp [Cmd.isFree] at hfree
        · exact ⟨_, rfl⟩
      exact ih cmds (stepCmd (.freeRegionCmd slot) w') w hf
        (free_step_sim slot hsim) hok.2
    · rw [List.filter_cons_of_pos (by simp [hfree])] at hf
      subst hf
      have hsim' := stepCmd_sim c (by simpa using hfree) hsim hok.1
      exact ih (rest.filter (fun c => !c.isFree)) (stepCmd c w') (stepCmd c w)
        rfl hsim' hok.2

/-- **C9.** Destroying caller-held `Region` objects is transparent to the
orchestrator: running a session script with `free` commands inserted (the
script without the frees being `cmds`), where every command still resolves
its handles (the frees happen after the regions' last use), leaves the
orchestrator's state — and hence the netlist `extract_netlist` produces —
exactly as in the run that never freed anything: the orchestrator tracks
layers by internal id and never depends on the caller-held handles. -/
theorem freeing_regions_preserves_extraction (cmds' cmds : List Cmd) (w' w : World)
    (hf : cmds'.filter (fun c => !c.isFree) = cmds)
    (hl : w'.l2n = w.l2n)
    (hsub : ∀ i r, w'.caller i = some r → w.caller i = some r)
    (hok : runOk cmds' w' = true) :
    (runScript cmds' w').l2n = (runScript cmds w).l2n ∧
      (runScript cmds' w').l2n.mp_netlist = (runScript cmds w).l2n.mp_netlist := by
  have h := runScript_sim cmds' cmds w' w hf ⟨hl, hsub⟩ hok
  exact ⟨h, congrArg L2NState.mp_netlist h⟩

/-- Concrete instance: a session that connects two layers and extracts,
with the caller freeing both handles right before extraction (as in the
unit test), ends in the same orchestrator state as the session that keeps
them alive. -/
theorem freeing_regions_preserves_extraction_witness :
    (runScript [Cmd.makeLayerCmd 0, Cmd.makeLayerCmd 1, Cmd.connectInterCmd 0 1,
        Cmd.freeRegionCmd 0, Cmd.freeRegionCmd 1, Cmd.extractNetlistCmd]
        ⟨fun _ => none, L2NState.init []⟩).l2n
      = (runScript [Cmd.makeLayerCmd 0, Cmd.makeLayerCmd 1, Cmd.connectInterCmd 0 1,
          Cmd.extractNetlistCmd]
          ⟨fun _ => none, L2NState.init []⟩).l2n :=
  (freeing_regions_preserves_extraction
    [Cmd.makeLayerCmd 0, Cmd.makeLayerCmd 1, Cmd.connectInterCmd 0 1,
      Cmd.freeRegionCmd 0, Cmd.freeRegionCmd 1, Cmd.extractNetlistCmd]
    [Cmd.makeLayerCmd 0, Cmd.makeLayerCmd 1, Cmd.connectInterCmd 0 1,
      Cmd.extractNetlistCmd]
    ⟨fun _ => none, L2NState.init []⟩ ⟨fun _ => none, L2NState.init []⟩
    rfl rfl (fun _ _ h => h) rfl).1

theorem stepCmd_phaseInv (cmd : Cmd) (w : World) (h : PhaseInv w.l2n) :
    PhaseInv (stepCmd cmd w).l2n := by
  cases cmd with
  | makeLayerCmd slot => exact h
  | freeRegionCmd slot => exact h
  | connectIntraCmd slot =>
    cases hc : w.caller slot with
    | none => simp only [stepCmd, hc]; exact h
    | some r => simp only [stepCmd, hc]; exact h
  | connectInterCmd s1 s2 =>
    cases hc1 : w.caller s1 with
    | none => simp only [stepCmd, hc1]; exact h
    | some a =>
      cases hc2 : w.caller s2 with
      | none => simp only [stepCmd, hc1, hc2]; exact h
      | some b => simp only [stepCmd, hc1, hc2]; exact h
  | connectGlobalCmd slot gn =>
    cases hc : w.caller slot with
    | none => simp only [stepCmd, hc]; exact h
    | some r => simp only [stepCmd, hc]; exact h
  | extractDevicesCmd ex roles =>
    cases hres : resolveRoles w.caller roles with
    | none => simp only [stepCmd, hres]; exact h
    | some layers =>
      simp only [stepCmd, hres, extract_devices]
      by_cases hall : (ex.requiredRoles.all
          (fun role => layers.any (fun kv => kv.1 = role))) = true
      · rw [if_pos hall]; exact h
      · rw [if_neg hall]; exact h
  | extractNetlistCmd =>
    simp only [stepCmd, extract_netlist]
    by_cases hext : w.l2n.m_netlist_extracted = true
    · rw [if_pos hext]; exact h
    · rw [if_neg hext]
      intro hx
      exact absurd hx (by simp)

theorem runScript_phaseInv (cmds : List Cmd) (w : World) (h : PhaseInv w.l2n) :
    PhaseInv (runScript cmds w).l2n := by
  induction cmds generalizing w with
  | nil => exact h
  | cons c rest ih => exact ih (stepCmd c w) (stepCmd_phaseInv c w h)

/-- **C10.** `netlist()` called before `extract_netlist` has run on the
session returns a null pointer (`none`) rather than raising an error, and
after a successful `extract_netlist` it returns the (non-null) extracted
netlist. -/
theorem netlist_query_phase (design : List Shape) (cmds : List Cmd)
    (caller0 : Nat → Option Region) (st st' : L2NState)
    (hreach : st = (runScript cmds ⟨caller0, L2NState.init design⟩).l2n)
    (hnot : st.m_netlist_extracted = false)
    (hex : extract_netlist st = Except.ok st') :
    netlistQueryFn st = none ∧
      runResultOp ResultOp.netlistQuery st = Except.ok (ResultVal.netlistVal none) ∧
      netlistQueryFn st' = some (extractNetlistFrom st) := by
  have hinv : PhaseInv st := by
    rw [hreach]
    exact runScript_phaseInv cmds _ (fun _ => rfl)
  have hnone := hinv hnot
  refine ⟨hnone, ?_, ?_⟩
  · simp only [runResultOp, hnone]
  · rw [extract_netlist, if_neg (by simp [hnot])] at hex
    have hst' : st' = { st with
        mp_netlist := some (extractNetlistFrom st)
        m_netlist_extracted := true } := (Except.ok.inj hex).symm
    rw [hst']
    rfl

/-- Concrete instance: a fresh session's netlist query yields null; after
extraction it yields the extracted netlist. -/
theorem netlist_query_phase_witness :
    netlistQueryFn (L2NState.init []) = none ∧
      runResultOp ResultOp.netlistQuery (L2NState.init [])
        = Except.ok (ResultVal.netlistVal none) ∧
      netlistQueryFn { L2NState.init [] with
          mp_netlist := some (extractNetlistFrom (L2NState.init []))
          m_netlist_extracted := true }
        = some (extractNetlistFrom (L2NState.init [])) :=
  netlist_query_phase [] [] (fun _ => none) (L2NState.init [])
    { L2NState.init [] with
        mp_netlist := some (extractNetlistFrom (L2NState.init []))
        m_netlist_extracted := true }
    rfl rfl rfl

end KLayout
